import Mathlib

/-!
Verification of the project-plan extraction and inline-rendering pipeline of a
chat application (TypeScript sources under `web/src/lib/project-plan-parser.ts`,
`web/src/components/message.tsx`, and `server/src/routes/api/chats/index.ts`).

JavaScript strings are modelled as `List Char`; `String.prototype.indexOf`,
`slice`, and `trim` are translated as explicit list functions.  JSON values are
modelled by the inductive type `Json`; the JavaScript builtin `JSON.parse`
(which is not part of this repository) is modelled as an abstract total
function `Str → Option Json`, where `none` stands for a thrown `SyntaxError`
(the source wraps the call in `try ... catch`).  JSON numbers are carried as
integers; no claim inspects numeric values.
-/

namespace Tekkr

/-- JavaScript strings, modelled as lists of characters. -/
abbrev Str := List Char

/-- Whitespace in the sense of ECMAScript (`\s`, `String.prototype.trim`):
space, tab, line feed, carriage return, vertical tab, form feed, NBSP, and the
Unicode space separators recognized by JavaScript engines. -/
def isJsWhitespace (c : Char) : Bool :=
  c == ' ' || c == '\t' || c == '\n' || c == '\r' ||
  c == Char.ofNat 0x0b || c == Char.ofNat 0x0c ||
  c == Char.ofNat 0xa0 || c == Char.ofNat 0x1680 ||
  (Char.ofNat 0x2000 ≤ c && c ≤ Char.ofNat 0x200a) ||
  c == Char.ofNat 0x2028 || c == Char.ofNat 0x2029 || c == Char.ofNat 0x202f ||
  c == Char.ofNat 0x205f || c == Char.ofNat 0x3000 || c == Char.ofNat 0xfeff

/-- JavaScript `s.trim()`: strip leading and trailing whitespace. -/
def trim (s : Str) : Str :=
  ((s.dropWhile isJsWhitespace).reverse.dropWhile isJsWhitespace).reverse

/-- Helper for `strIndexOf`: scan `s` left to right, returning the index
(offset by the accumulator `i`) of the first position where `pat` is a prefix
of the remaining input. -/
def strIndexOfAux (pat : Str) : Str → Nat → Option Nat
  | [], i => if pat.isEmpty then some i else none
  | c :: cs, i =>
    if pat.isPrefixOf (c :: cs) then some i else strIndexOfAux pat cs (i + 1)

/-- JavaScript `s.indexOf(pat)`, with `none` standing for the sentinel `-1`. -/
def strIndexOf (s pat : Str) : Option Nat :=
  strIndexOfAux pat s 0

/-- The opening sentinel `OPEN` of `project-plan-parser.ts`. -/
def OPEN : Str := "<project_plan>".toList

/-- The closing sentinel `CLOSE` of `project-plan-parser.ts`. -/
def CLOSE : Str := "</project_plan>".toList

/-- JSON values as produced by `JSON.parse`.  Numbers are carried as integers;
no claim in this development inspects a numeric payload. -/
inductive Json where
  | null
  | bool (b : Bool)
  | num (n : Int)
  | str (s : Str)
  | arr (elems : List Json)
  | obj (members : List (Str × Json))

instance : Inhabited Json := ⟨Json.null⟩

/-- Field lookup in an object member list (first match; objects produced by
`JSON.parse` have unique keys, so the direction of the scan is immaterial). -/
def lookupField : List (Str × Json) → Str → Option Json
  | [], _ => none
  | (k, v) :: rest, key => if k = key then some v else lookupField rest key

/-- JavaScript property access `v.key` on a parsed JSON value: `none` stands
for `undefined`.  Arrays and primitives have none of the fields the validator
reads. -/
def getField : Json → Str → Option Json
  | .obj ms, key => lookupField ms key
  | _, _ => none

/-- The guard `!v || typeof v !== "object"` of the source, negated: a truthy
value of type `object`.  Arrays satisfy the guard (`typeof [] === "object"`);
`null` is falsy and is rejected. -/
def isObjectLike : Json → Bool
  | .obj _ => true
  | .arr _ => true
  | _ => false

/-- Source `isNonEmptyString`, applied to a property-access result:
`typeof v === "string" && v.trim().length > 0` (with `none` = `undefined`). -/
def isNonEmptyString : Option Json → Bool
  | some (.str s) => !(trim s).isEmpty
  | _ => false

/-- The field name `"title"`. -/
def titleKey : Str := "title".toList

/-- The field name `"description"`. -/
def descriptionKey : Str := "description".toList

/-- The field name `"deliverables"`. -/
def deliverablesKey : Str := "deliverables".toList

/-- The field name `"workstreams"`. -/
def workstreamsKey : Str := "workstreams".toList

/-- Source `isDeliverable`: an object-like value whose `title` and
`description` are non-empty-after-trim strings. -/
def isDeliverable (v : Json) : Bool :=
  isObjectLike v &&
  isNonEmptyString (getField v titleKey) &&
  isNonEmptyString (getField v descriptionKey)

/-- Source `isWorkstream`: object-like, `title` and `description` non-empty
strings, and `deliverables` an array all of whose elements pass
`isDeliverable` (`Array.isArray` fails on a missing or non-array field). -/
def isWorkstream (v : Json) : Bool :=
  isObjectLike v &&
  isNonEmptyString (getField v titleKey) &&
  isNonEmptyString (getField v descriptionKey) &&
  (match getField v deliverablesKey with
   | some (.arr ds) => ds.all isDeliverable
   | _ => false)

/-- Source `isProjectPlan`: object-like with a `workstreams` array all of
whose elements pass `isWorkstream`. -/
def isProjectPlan (v : Json) : Bool :=
  isObjectLike v &&
  (match getField v workstreamsKey with
   | some (.arr ws) => ws.all isWorkstream
   | _ => false)

/-- Source `ParsedProjectPlanMessage`: the three-part rendering model. -/
structure ParsedProjectPlanMessage where
  beforeText : Str
  afterText : Str
  projectPlan : Option Json

/-- Source `splitByProjectPlanTag`: locate the first occurrence of each
sentinel; fail unless the first closer is strictly after the first opener;
slice the content into before / trimmed payload / after.  JavaScript
`content.slice(a, b)` is `(content.drop a).take (b - a)` (empty when `b ≤ a`,
matching truncated subtraction), and `content.slice(a)` is `content.drop a`. -/
def splitByProjectPlanTag (content : Str) : Option (Str × Str × Str) :=
  match strIndexOf content OPEN, strIndexOf content CLOSE with
  | some start, some stop =>
    if stop ≤ start then none
    else
      some (content.take start,
            trim ((content.drop (start + OPEN.length)).take (stop - (start + OPEN.length))),
            content.drop (stop + CLOSE.length))
  | _, _ => none

/-- Source `parseProjectPlanMessage`.  `jsonParse` models the JavaScript
builtin `JSON.parse`, with `none` for a thrown `SyntaxError` (the source wraps
the call in `try ... catch`).  `projectPlan` is the optional side-channel plan
attached by the server; in the fallback branch the source's truthiness guard
`projectPlan && isProjectPlan(projectPlan)` is equivalent to the validator
test alone, since every falsy value fails `isProjectPlan`. -/
def parseProjectPlanMessage (jsonParse : Str → Option Json)
    (content : Str) (projectPlan : Option Json) : ParsedProjectPlanMessage :=
  match splitByProjectPlanTag content with
  | some (beforeText, jsonText, afterText) =>
    match jsonParse jsonText with
    | some parsed =>
      { beforeText := beforeText, afterText := afterText,
        projectPlan := if isProjectPlan parsed then some parsed else none }
    | none => { beforeText := content, afterText := [], projectPlan := none }
  | none =>
    match projectPlan with
    | some p =>
      if isProjectPlan p then
        { beforeText := content, afterText := [], projectPlan := some p }
      else
        { beforeText := content, afterText := [], projectPlan := none }
    | none => { beforeText := content, afterText := [], projectPlan := none }

/-- One renderable unit emitted by `MessageBody` in `message.tsx`: a plain
text block or a plan panel. -/
inductive Region where
  | text (s : Str)
  | plan (p : Json)

/-- Source `MessageBody` (message.tsx): parse the message, then emit the
trimmed `beforeText` only when non-empty, the plan panel only when a plan is
present, and the trimmed `afterText` only when non-empty, in that order. -/
def messageBodyRegions (jsonParse : Str → Option Json)
    (content : Str) (projectPlan : Option Json) : List Region :=
  let parsed := parseProjectPlanMessage jsonParse content projectPlan
  (if (trim parsed.beforeText).length > 0 then [Region.text (trim parsed.beforeText)] else [])
    ++ (match parsed.projectPlan with
        | some p => [Region.plan p]
        | none => [])
    ++ (if (trim parsed.afterText).length > 0 then [Region.text (trim parsed.afterText)] else [])

/-- Case-insensitive literal match of a (lowercase) pattern against the start
of the input, in the manner of a JavaScript regex literal with the `i` flag:
each input character is lowercased before comparison. -/
def ciPrefixOf : Str → Str → Bool
  | [], _ => true
  | _ :: _, [] => false
  | p :: ps, c :: cs => (p == c.toLower) && ciPrefixOf ps cs

/-- The literal `project` of the detector regex. -/
def projectChars : Str := "project".toList

/-- The literal `plan` of the detector regex. -/
def planChars : Str := "plan".toList

/-- Length of the maximal run of whitespace at the start of the input (the
greedy extent of `\s+`). -/
def wsRunLength : Str → Nat
  | [] => 0
  | c :: cs => if isJsWhitespace c then wsRunLength cs + 1 else 0

/-- One anchored attempt of the regex `/project\s+plan/i` at the start of
`s`: match `project` case-insensitively, then try every non-empty
backtracking extent `j + 1` of `\s+` up to the greedy run, then match
`plan`. -/
def matchProjectPlanAt (s : Str) : Bool :=
  ciPrefixOf projectChars s &&
  (let rest := s.drop projectChars.length
   (List.range (wsRunLength rest)).any
     (fun j => ciPrefixOf planChars (rest.drop (j + 1))))

/-- Does `p` hold of some suffix of the input?  This is the unanchored search
performed by `RegExp.prototype.test`. -/
def anySuffix (p : Str → Bool) : Str → Bool
  | [] => p []
  | c :: cs => p (c :: cs) || anySuffix p cs

/-- Source `isProjectPlanRequest` (chats/index.ts): the test
`/project\s+plan/i.test(text)`. -/
def isProjectPlanRequest (text : Str) : Bool :=
  anySuffix matchProjectPlanAt text

/-- Source `buildProjectPlanSystemPrompt` (chats/index.ts): the fixed
instruction block, six lines joined by a newline. -/
def buildProjectPlanSystemPrompt : Str :=
  ("When (and only when) the user is requesting a project plan, you MUST include exactly one <project_plan>...</project_plan> block inside your response.\n" ++
   "The content inside <project_plan> must be valid JSON (no markdown fences) with this schema:\n" ++
   "\x7b\"workstreams\":[\x7b\"title\":string,\"description\":string,\"deliverables\":[\x7b\"title\":string,\"description\":string\x7d]\x7d]\x7d\n" ++
   "Outside the <project_plan> block, respond normally with helpful natural language.\n" ++
   "The <project_plan> block MAY appear in the middle of your message (include 1-2 sentences before and after it).\n" ++
   "Do not include any other <project_plan> blocks. Do not put any extra text inside the tags besides JSON.").toList

/-- The system-prompt attachment of the message handler (chats/index.ts,
`systemPrompt: wantsProjectPlan ? buildProjectPlanSystemPrompt() : undefined`):
`none` stands for `undefined`, i.e. no system prompt attached. -/
def systemPromptForMessage (content : Str) : Option Str :=
  if isProjectPlanRequest content then some buildProjectPlanSystemPrompt else none

/-- A pattern has no non-trivial border: no non-empty proper prefix of it is
also a suffix of it.  Both sentinels have this property, which rules out an
occurrence of a sentinel overlapping an injected copy of itself. -/
def Borderless (pat : Str) : Prop :=
  ∀ r : Str, r ≠ [] → r.length < pat.length → r <+: pat → r <:+ pat → False

/-- Spec-side restatement of the validator, for the refinement comparison: the named field holds a
string that is non-empty after trimming. -/
def SpecNonEmptyStringField (v : Json) (key : Str) : Prop :=
  ∃ s, getField v key = some (Json.str s) ∧ trim s ≠ []

/-- Spec-side restatement, following the spec's words: a deliverable is a record
with `title` and `description` strings that are non-empty after trimming. -/
def SpecDeliverableShape (v : Json) : Prop :=
  (∃ ms, v = Json.obj ms) ∧
  SpecNonEmptyStringField v titleKey ∧
  SpecNonEmptyStringField v descriptionKey

/-- Spec-side restatement, following the spec's words: a workstream is a record
with non-empty `title` and `description` and a `deliverables` array all of
whose elements satisfy the deliverable shape (the array may be empty). -/
def SpecWorkstreamShape (v : Json) : Prop :=
  (∃ ms, v = Json.obj ms) ∧
  SpecNonEmptyStringField v titleKey ∧
  SpecNonEmptyStringField v descriptionKey ∧
  ∃ ds, getField v deliverablesKey = some (Json.arr ds) ∧ ∀ d ∈ ds, SpecDeliverableShape d

/-- Spec-side restatement, following the spec's words: a project plan is a record
with a `workstreams` array all of whose elements satisfy the workstream shape
(the array may be empty). -/
def SpecProjectPlanShape (v : Json) : Prop :=
  (∃ ms, v = Json.obj ms) ∧
  ∃ ws, getField v workstreamsKey = some (Json.arr ws) ∧ ∀ w ∈ ws, SpecWorkstreamShape w

/-- The condition claimed for the plan-request detector: the text contains
the literal phrase `project plan` as a case-insensitive substring. -/
def containsProjectPlanPhraseCI (text : Str) : Bool :=
  anySuffix (ciPrefixOf "project plan".toList) text

/-- The condition the detector actually implements, stated declaratively: at
some position the text matches `project`, then at least one whitespace
character, then `plan`, all case-insensitively. -/
def SpecProjectSpacePlanMatch (text : Str) : Prop :=
  ∃ i k, 1 ≤ k ∧
    ciPrefixOf projectChars (text.drop i) = true ∧
    (((text.drop i).drop projectChars.length).take k).all isJsWhitespace = true ∧
    ciPrefixOf planChars (((text.drop i).drop projectChars.length).drop k) = true

/-- A stub for `JSON.parse` that accepts every payload and decodes it to the
fixed value `v`; used to instantiate theorems at concrete inputs. -/
def parseConst (v : Json) : Str → Option Json := fun _ => some v

/-- A stub for `JSON.parse` that rejects every payload (always throws). -/
def parseNone : Str → Option Json := fun _ => none

/-- Concrete message whose tagged payload is the schema-invalid JSON `{}`. -/
def c1Content : Str := "A<project_plan>\x7b\x7d</project_plan>B".toList

/-- Concrete message whose tagged payload is not syntactically valid JSON. -/
def c2Content : Str := "X<project_plan>\x7bnot json</project_plan>Y".toList

/-- The smallest schema-valid plan: zero workstreams. -/
def emptyPlan : Json := Json.obj [(workstreamsKey, Json.arr [])]

/-- The JSON serialization of `emptyPlan`. -/
def emptyPlanJson : Str := "\x7b\"workstreams\":[]\x7d".toList

/-- A schema-valid plan with one workstream and one deliverable. -/
def demoPlan : Json :=
  Json.obj [(workstreamsKey, Json.arr [
    Json.obj [(titleKey, Json.str "Discovery".toList),
              (descriptionKey, Json.str "Understand the problem".toList),
              (deliverablesKey, Json.arr [
                Json.obj [(titleKey, Json.str "Brief".toList),
                          (descriptionKey, Json.str "One page summary".toList)]])]])]

/-- A serialized payload standing for the JSON text of `demoPlan`. -/
def demoPlanJson : Str :=
  "\x7b\"workstreams\":[\x7b\"title\":\"Discovery\",\"description\":\"Understand the problem\",\"deliverables\":[\x7b\"title\":\"Brief\",\"description\":\"One page summary\"\x7d]\x7d]\x7d".toList

/-- A workstream object with the two string fields and an empty deliverables
array, used to exercise the validator on extra fields. -/
def plainWorkstreamMembers : List (Str × Json) :=
  [(titleKey, Json.str "Build".toList),
   (descriptionKey, Json.str "Do the work".toList),
   (deliverablesKey, Json.arr [])]

/-- Plan members carrying one conforming workstream. -/
def planMembers : List (Str × Json) :=
  [(workstreamsKey, Json.arr [Json.obj plainWorkstreamMembers])]

/-- Extra fields beyond the validated ones. -/
def extraMembers : List (Str × Json) :=
  [("version".toList, Json.num 2), ("owner".toList, Json.str "me".toList)]

/-- A plan value carrying extra fields at the top level and inside its
workstream, as a server might attach. -/
def extrasPlan : Json :=
  Json.obj ([(workstreamsKey, Json.arr [Json.obj (plainWorkstreamMembers ++ extraMembers)])] ++ extraMembers)

/-- When the scan of `strIndexOfAux` fails, the pattern is a prefix of no
suffix of the input. -/
theorem strIndexOfAux_eq_none {pat : Str} :
    ∀ {s : Str} {i : Nat}, strIndexOfAux pat s i = none →
      ∀ j, pat.isPrefixOf (s.drop j) = false := by
  intro s
  induction s with
  | nil =>
    intro i h j
    unfold strIndexOfAux at h
    by_cases hp : pat.isEmpty
    · simp [hp] at h
    · rw [List.drop_nil]
      cases pat with
      | nil => simp [List.isEmpty] at hp
      | cons c cs => rfl
  | cons c cs ih =>
    intro i h j
    unfold strIndexOfAux at h
    by_cases hpre : pat.isPrefixOf (c :: cs) = true
    · simp [hpre] at h
    · rw [if_neg hpre] at h
      cases j with
      | zero =>
        rw [List.drop_zero]
        exact Bool.eq_false_iff.mpr hpre
      | succ j =>
        rw [List.drop_succ_cons]
        exact ih h j

/-- When the pattern matches at position `k` and at no earlier position, the
scan of `strIndexOfAux` reports exactly `k` (offset by the accumulator). -/
theorem strIndexOfAux_eq_some (pat : Str) :
    ∀ (s : Str) (k i : Nat),
      (∀ j, j < k → pat.isPrefixOf (s.drop j) = false) →
      pat.isPrefixOf (s.drop k) = true → k ≤ s.length →
      strIndexOfAux pat s i = some (i + k) := by
  intro s
  induction s with
  | nil =>
    intro k i hlt hk hle
    have hk0 : k = 0 := Nat.le_zero.mp hle
    subst hk0
    rw [List.drop_nil] at hk
    cases pat with
    | nil => simp [strIndexOfAux, List.isEmpty]
    | cons p ps => exact absurd hk (by simp [List.isPrefixOf])
  | cons c cs ih =>
    intro k i hlt hk hle
    cases k with
    | zero =>
      rw [List.drop_zero] at hk
      unfold strIndexOfAux
      rw [if_pos hk, Nat.add_zero]
    | succ k =>
      have h0 : ¬ pat.isPrefixOf (c :: cs) = true := by
        have := hlt 0 (Nat.succ_pos k)
        rw [List.drop_zero] at this
        simp [this]
      unfold strIndexOfAux
      rw [if_neg h0]
      have hrec := ih k (i + 1)
        (fun j hj => by
          have := hlt (j + 1) (Nat.succ_lt_succ hj)
          rwa [List.drop_succ_cons] at this)
        (by rwa [List.drop_succ_cons] at hk)
        (by simpa using Nat.lt_succ_iff.mp (Nat.lt_of_succ_le hle))
      rw [hrec]
      congr 1
      omega

/-- A pattern passing the bounded border check is borderless. -/
theorem borderless_of_check {pat : Str}
    (h : ∀ k, k < pat.length → 0 < k → pat.take k ≠ pat.drop (pat.length - k)) :
    Borderless pat := by
  intro r hne hlen hpre hsuf
  have h1 : r = pat.take r.length := List.prefix_iff_eq_take.mp hpre
  have h2 : r = pat.drop (pat.length - r.length) := List.suffix_iff_eq_drop.mp hsuf
  exact absurd (h1.symm.trans h2) (h r.length hlen (List.length_pos.mpr hne))

/-- The opening sentinel has no non-trivial border. -/
theorem borderless_OPEN : Borderless OPEN :=
  borderless_of_check (by decide)

/-- The closing sentinel has no non-trivial border. -/
theorem borderless_CLOSE : Borderless CLOSE :=
  borderless_of_check (by decide)

/-- A borderless pattern that occurs nowhere in `X` also matches at no
position of `X ++ (pat ++ Y)` strictly before `X.length`. -/
theorem no_early_match {pat X Y : Str} (hb : Borderless pat)
    (hX : ∀ j, pat.isPrefixOf (X.drop j) = false) :
    ∀ j, j < X.length → pat.isPrefixOf ((X ++ (pat ++ Y)).drop j) = false := by
  intro j hj
  rw [← Bool.not_eq_true]
  intro htrue
  rw [List.drop_append_of_le_length (Nat.le_of_lt hj)] at htrue
  have hpre : pat <+: (X.drop j ++ (pat ++ Y)) := List.isPrefixOf_iff_prefix.mp htrue
  have htne : X.drop j ≠ [] := by
    have : 0 < (X.drop j).length := by
      rw [List.length_drop]
      omega
    exact List.length_pos.mp this
  by_cases hle : pat.length ≤ (X.drop j).length
  · have h1 : pat <+: X.drop j :=
      List.prefix_of_prefix_length_le hpre (List.prefix_append (X.drop j) (pat ++ Y)) hle
    have h2 := List.isPrefixOf_iff_prefix.mpr h1
    rw [hX j] at h2
    exact Bool.noConfusion h2
  · push_neg at hle
    have h2 : X.drop j <+: pat :=
      List.prefix_of_prefix_length_le (List.prefix_append (X.drop j) (pat ++ Y)) hpre
        (Nat.le_of_lt hle)
    obtain ⟨r, hr⟩ := h2
    have hrne : r ≠ [] := by
      intro h0
      subst h0
      rw [List.append_nil] at hr
      rw [hr] at hle
      exact Nat.lt_irrefl _ hle
    have hrlen : r.length < pat.length := by
      have := congrArg List.length hr
      rw [List.length_append] at this
      have htpos : 0 < (X.drop j).length := List.length_pos.mpr htne
      omega
    have h3 : r <+: (pat ++ Y) := by
      have hcat : X.drop j ++ r <+: X.drop j ++ (pat ++ Y) := by
        rw [hr]
        exact hpre
      exact (List.prefix_append_right_inj (X.drop j)).mp hcat
    have h4 : r <+: pat :=
      List.prefix_of_prefix_length_le h3 (List.prefix_append pat Y) (Nat.le_of_lt hrlen)
    have h5 : r <:+ pat := by
      rw [← hr]
      exact List.suffix_append (X.drop j) r
    exact hb r hrne hrlen h4 h5

/-- First-occurrence computation: if a borderless pattern occurs nowhere in
`X`, its first occurrence in `X ++ (pat ++ Y)` is at `X.length`. -/
theorem strIndexOf_append (pat X Y : Str) (hb : Borderless pat)
    (hX : strIndexOf X pat = none) :
    strIndexOf (X ++ (pat ++ Y)) pat = some X.length := by
  have hX' : ∀ j, pat.isPrefixOf (X.drop j) = false := strIndexOfAux_eq_none hX
  have hat : pat.isPrefixOf ((X ++ (pat ++ Y)).drop X.length) = true := by
    rw [List.drop_left]
    exact List.isPrefixOf_iff_prefix.mpr (List.prefix_append pat Y)
  have hlen : X.length ≤ (X ++ (pat ++ Y)).length := by
    rw [List.length_append]
    omega
  have := strIndexOfAux_eq_some pat (X ++ (pat ++ Y)) X.length 0
    (no_early_match hb hX') hat hlen
  simpa [strIndexOf] using this

/-- Splitting a message assembled around a well-placed sentinel pair recovers
exactly the three injected parts (with the payload trimmed), provided the
opening sentinel does not occur in `before` and the closing sentinel does not
occur anywhere before the injected closer. -/
theorem splitByProjectPlanTag_append (before payload after : Str)
    (hopen : strIndexOf before OPEN = none)
    (hclose : strIndexOf (before ++ OPEN ++ payload) CLOSE = none) :
    splitByProjectPlanTag (before ++ OPEN ++ payload ++ CLOSE ++ after)
      = some (before, trim payload, after) := by
  have hO : strIndexOf (before ++ OPEN ++ payload ++ CLOSE ++ after) OPEN
      = some before.length := by
    have h : before ++ OPEN ++ payload ++ CLOSE ++ after
        = before ++ (OPEN ++ (payload ++ CLOSE ++ after)) := by
      simp [List.append_assoc]
    rw [h]
    exact strIndexOf_append OPEN before (payload ++ CLOSE ++ after) borderless_OPEN hopen
  have hC : strIndexOf (before ++ OPEN ++ payload ++ CLOSE ++ after) CLOSE
      = some (before ++ OPEN ++ payload).length := by
    have h : before ++ OPEN ++ payload ++ CLOSE ++ after
        = (before ++ OPEN ++ payload) ++ (CLOSE ++ after) := by
      simp [List.append_assoc]
    rw [h]
    exact strIndexOf_append CLOSE (before ++ OPEN ++ payload) after borderless_CLOSE hclose
  have hXlen : (before ++ OPEN ++ payload).length
      = before.length + OPEN.length + payload.length := by
    simp [List.length_append]
    omega
  have hOlen : 0 < OPEN.length := by decide
  unfold splitByProjectPlanTag
  rw [hO, hC]
  dsimp only
  rw [if_neg (by omega : ¬ (before ++ OPEN ++ payload).length ≤ before.length)]
  have e1 : (before ++ OPEN ++ payload ++ CLOSE ++ after).take before.length = before := by
    have h : before ++ OPEN ++ payload ++ CLOSE ++ after
        = before ++ (OPEN ++ payload ++ CLOSE ++ after) := by
      simp [List.append_assoc]
    rw [h]
    exact List.take_left before (OPEN ++ payload ++ CLOSE ++ after)
  have e2 : (before ++ OPEN ++ payload ++ CLOSE ++ after).drop (before.length + OPEN.length)
      = payload ++ CLOSE ++ after := by
    have h : before ++ OPEN ++ payload ++ CLOSE ++ after
        = (before ++ OPEN) ++ (payload ++ CLOSE ++ after) := by
      simp [List.append_assoc]
    rw [h, show before.length + OPEN.length = (before ++ OPEN).length by
      rw [List.length_append], List.drop_left]
  have e3 : (before ++ OPEN ++ payload ++ CLOSE ++ after).drop
      ((before ++ OPEN ++ payload).length + CLOSE.length) = after := by
    have h : before ++ OPEN ++ payload ++ CLOSE ++ after
        = (before ++ OPEN ++ payload ++ CLOSE) ++ after := by
      simp [List.append_assoc]
    have hlen4 : (before ++ OPEN ++ payload).length + CLOSE.length
        = (before ++ OPEN ++ payload ++ CLOSE).length := by
      simp [List.length_append]
      omega
    rw [h, hlen4, List.drop_left]
  rw [e1, e2, e3]
  have e4 : (before ++ OPEN ++ payload).length - (before.length + OPEN.length)
      = payload.length := by
    rw [hXlen]
    omega
  rw [e4]
  rw [List.append_assoc payload CLOSE after]
  rw [List.take_left payload (CLOSE ++ after)]

/-- Extracting from a message assembled around a well-placed sentinel pair
whose payload decodes to a schema-valid plan returns exactly the surrounding
texts and that plan. -/
theorem parse_append_block (jsonParse : Str → Option Json) (scp : Option Json)
    (before payload after : Str) (v : Json)
    (hopen : strIndexOf before OPEN = none)
    (hclose : strIndexOf (before ++ OPEN ++ payload) CLOSE = none)
    (hdec : jsonParse (trim payload) = some v)
    (hvalid : isProjectPlan v = true) :
    parseProjectPlanMessage jsonParse (before ++ OPEN ++ payload ++ CLOSE ++ after) scp
      = ⟨before, after, some v⟩ := by
  unfold parseProjectPlanMessage
  rw [splitByProjectPlanTag_append before payload after hopen hclose]
  dsimp only
  rw [hdec]
  dsimp only
  rw [if_pos hvalid]

/-- C1 counterexample: `c1Content` holds a well-formed sentinel pair (opener
first at index 1, closer first at index 17) whose payload decodes to the
schema-invalid value `\x7b\x7d`, yet the parser keeps the tag split —
`beforeText` is `A`, not the whole content, and `afterText` is `B`, not
empty — refuting the claimed fail-closed behaviour on bad shape. -/
theorem C1_counterexample :
    strIndexOf c1Content OPEN = some 1 ∧
    strIndexOf c1Content CLOSE = some 17 ∧
    parseConst (Json.obj [])
        (trim ((c1Content.drop (1 + OPEN.length)).take (17 - (1 + OPEN.length))))
      = some (Json.obj []) ∧
    isProjectPlan (Json.obj []) = false ∧
    (parseProjectPlanMessage (parseConst (Json.obj [])) c1Content none).beforeText ≠ c1Content ∧
    (parseProjectPlanMessage (parseConst (Json.obj [])) c1Content none).afterText ≠ [] :=
  ⟨by decide, by decide, rfl, by decide, by decide, by decide⟩

/-- C1 (amended): on a schema-invalid payload inside a well-formed sentinel
pair, the parser returns the plan absent but keeps the tag split — the text
before the first opener as `beforeText` and the text after the first closer
as `afterText` — rather than the whole original content. -/
theorem C1_badShapeKeepsSplit (jsonParse : Str → Option Json) (content : Str)
    (scp : Option Json) (p q : Nat) (v : Json)
    (hp : strIndexOf content OPEN = some p)
    (hq : strIndexOf content CLOSE = some q)
    (hlt : p < q)
    (hdec : jsonParse (trim ((content.drop (p + OPEN.length)).take (q - (p + OPEN.length))))
      = some v)
    (hinvalid : isProjectPlan v = false) :
    parseProjectPlanMessage jsonParse content scp
      = ⟨content.take p, content.drop (q + CLOSE.length), none⟩ := by
  unfold parseProjectPlanMessage splitByProjectPlanTag
  rw [hp, hq]
  dsimp only
  rw [if_neg (by omega : ¬ q ≤ p)]
  dsimp only
  rw [hdec]
  simp [hinvalid]

/-- Witness for the amended C1 at the concrete input `c1Content`. -/
theorem C1_badShapeKeepsSplit_witness :
    parseProjectPlanMessage (parseConst (Json.obj [])) c1Content none
      = ⟨c1Content.take 1, c1Content.drop (17 + CLOSE.length), none⟩ :=
  C1_badShapeKeepsSplit (parseConst (Json.obj [])) c1Content none 1 17 (Json.obj [])
    (by decide) (by decide) (by decide) rfl (by decide)

/-- C2: fail-closed on malformed JSON.  For every content string containing a
well-formed sentinel pair (first closer strictly after first opener) whose
trimmed payload fails JSON decoding, extraction returns the entire original
content (raw tags included) as `beforeText`, an empty `afterText`, and no
plan. -/
theorem C2_failClosedOnBadJson (jsonParse : Str → Option Json) (content : Str)
    (scp : Option Json) (p q : Nat)
    (hp : strIndexOf content OPEN = some p)
    (hq : strIndexOf content CLOSE = some q)
    (hlt : p < q)
    (hfail : jsonParse (trim ((content.drop (p + OPEN.length)).take (q - (p + OPEN.length))))
      = none) :
    parseProjectPlanMessage jsonParse content scp = ⟨content, [], none⟩ := by
  unfold parseProjectPlanMessage splitByProjectPlanTag
  rw [hp, hq]
  dsimp only
  rw [if_neg (by omega : ¬ q ≤ p)]
  dsimp only
  rw [hfail]

/-- Witness for C2 at the concrete input `c2Content`. -/
theorem C2_failClosedOnBadJson_witness :
    parseProjectPlanMessage parseNone c2Content none = ⟨c2Content, [], none⟩ :=
  C2_failClosedOnBadJson parseNone c2Content none 1 24 (by decide) (by decide)
    (by decide) rfl

/-- C3: when either sentinel is absent or the first closer is not strictly
after the first opener, the whole content becomes `beforeText`, `afterText`
is empty, and the plan is the side-channel plan exactly when one was supplied
and passes the validator. -/
theorem C3_noBlockSideChannelFallback (jsonParse : Str → Option Json) (content : Str)
    (scp : Option Json)
    (h : ∀ p q, strIndexOf content OPEN = some p → strIndexOf content CLOSE = some q → q ≤ p) :
    parseProjectPlanMessage jsonParse content scp
      = ⟨content, [],
         match scp with
         | some pl => if isProjectPlan pl then some pl else none
         | none => none⟩ := by
  have hsplit : splitByProjectPlanTag content = none := by
    unfold splitByProjectPlanTag
    cases hO : strIndexOf content OPEN with
    | none => rfl
    | some p =>
      cases hC : strIndexOf content CLOSE with
      | none => rfl
      | some q =>
        dsimp only
        rw [if_pos (h p q hO hC)]
  unfold parseProjectPlanMessage
  rw [hsplit]
  dsimp only
  cases scp with
  | none => rfl
  | some pl =>
    by_cases hv : isProjectPlan pl = true <;> simp [hv]

/-- Witness for C3 at a concrete tag-free input with a valid side-channel
plan. -/
theorem C3_noBlockSideChannelFallback_witness :
    parseProjectPlanMessage parseNone "Here is my answer.".toList (some demoPlan)
      = ⟨"Here is my answer.".toList, [], some demoPlan⟩ := by
  rw [C3_noBlockSideChannelFallback parseNone "Here is my answer.".toList (some demoPlan)
    (fun p q hp hq => by
      rw [show strIndexOf "Here is my answer.".toList OPEN = none from by decide] at hp
      exact Option.noConfusion hp)]
  simp [show isProjectPlan demoPlan = true from by decide]

/-- C4 counterexample: with `before` equal to the closing sentinel itself (and
a schema-valid zero-workstream plan), the first closer in the assembled
message precedes the first opener, so no block is found: `beforeText` is the
whole assembled string rather than `before`, and no plan is returned —
refuting the round-trip claim for arbitrary surrounding strings. -/
theorem C4_counterexample :
    isProjectPlan emptyPlan = true ∧
    parseConst emptyPlan (trim emptyPlanJson) = some emptyPlan ∧
    (parseProjectPlanMessage (parseConst emptyPlan)
        (CLOSE ++ OPEN ++ emptyPlanJson ++ CLOSE ++ ([] : Str)) none).beforeText ≠ CLOSE ∧
    (parseProjectPlanMessage (parseConst emptyPlan)
        (CLOSE ++ OPEN ++ emptyPlanJson ++ CLOSE ++ ([] : Str)) none).projectPlan.isNone
      = true :=
  ⟨by decide, rfl, by decide, by decide⟩

/-- C4 (amended): the round-trip holds provided the opening sentinel does not
occur in `before` and the closing sentinel does not occur anywhere before the
injected closer (in `before`, overlapping the opener, or inside the
payload): extraction then returns exactly `before`, `after`, and the decoded
plan. -/
theorem C4_roundTrip (jsonParse : Str → Option Json) (scp : Option Json)
    (before payload after : Str) (v : Json)
    (hopen : strIndexOf before OPEN = none)
    (hclose : strIndexOf (before ++ OPEN ++ payload) CLOSE = none)
    (hdec : jsonParse (trim payload) = some v)
    (hvalid : isProjectPlan v = true) :
    parseProjectPlanMessage jsonParse (before ++ OPEN ++ payload ++ CLOSE ++ after) scp
      = ⟨before, after, some v⟩ :=
  parse_append_block jsonParse scp before payload after v hopen hclose hdec hvalid

/-- Witness for the amended C4 at a concrete assembled message. -/
theorem C4_roundTrip_witness :
    parseProjectPlanMessage (parseConst demoPlan)
        ("Intro. ".toList ++ OPEN ++ demoPlanJson ++ CLOSE ++ " Outro.".toList) none
      = ⟨"Intro. ".toList, " Outro.".toList, some demoPlan⟩ :=
  C4_roundTrip (parseConst demoPlan) none "Intro. ".toList demoPlanJson " Outro.".toList
    demoPlan (by decide) (by decide) rfl (by decide)

/-- The non-empty-string test holds exactly of a string field whose trim is
non-empty. -/
theorem isNonEmptyString_iff (o : Option Json) :
    isNonEmptyString o = true ↔ ∃ s, o = some (Json.str s) ∧ trim s ≠ [] := by
  cases o with
  | none => simp [isNonEmptyString]
  | some v => cases v <;> simp [isNonEmptyString, List.isEmpty_iff]

/-- The deliverable check holds exactly of the spec's deliverable shape. -/
theorem isDeliverable_iff (v : Json) :
    isDeliverable v = true ↔ SpecDeliverableShape v := by
  cases v <;>
    simp [isDeliverable, isObjectLike, SpecDeliverableShape, SpecNonEmptyStringField,
      isNonEmptyString_iff, getField]

/-- The workstream check holds exactly of the spec's workstream shape. -/
theorem isWorkstream_iff (v : Json) :
    isWorkstream v = true ↔ SpecWorkstreamShape v := by
  cases v with
  | obj ms =>
    cases hd : lookupField ms deliverablesKey with
    | none =>
      simp [isWorkstream, SpecWorkstreamShape, SpecNonEmptyStringField, getField, hd,
        isNonEmptyString_iff, isObjectLike]
    | some dv =>
      cases dv <;>
        simp [isWorkstream, SpecWorkstreamShape, SpecNonEmptyStringField, getField, hd,
          isNonEmptyString_iff, isObjectLike, List.all_eq_true, isDeliverable_iff,
          and_assoc]
  | null => simp [isWorkstream, SpecWorkstreamShape, isObjectLike]
  | bool b => simp [isWorkstream, SpecWorkstreamShape, isObjectLike]
  | num n => simp [isWorkstream, SpecWorkstreamShape, isObjectLike]
  | str s => simp [isWorkstream, SpecWorkstreamShape, isObjectLike]
  | arr l =>
    simp [isWorkstream, SpecWorkstreamShape, isObjectLike, getField, isNonEmptyString]

/-- C5: all-or-nothing structural validation.  The validator accepts a value
exactly when it is a record whose `workstreams` field is an array of records
each carrying non-empty-after-trim `title` and `description` strings and a
`deliverables` array of records with non-empty-after-trim `title` and
`description`; any missing field, wrong type, or empty-after-trim string
anywhere rejects the whole value. -/
theorem C5_validatorAllOrNothing (v : Json) :
    isProjectPlan v = true ↔ SpecProjectPlanShape v := by
  cases v with
  | obj ms =>
    cases hw : lookupField ms workstreamsKey with
    | none => simp [isProjectPlan, SpecProjectPlanShape, getField, hw, isObjectLike]
    | some wv =>
      cases wv <;>
        simp [isProjectPlan, SpecProjectPlanShape, getField, hw, isObjectLike,
          List.all_eq_true, isWorkstream_iff]
  | null => simp [isProjectPlan, SpecProjectPlanShape, isObjectLike]
  | bool b => simp [isProjectPlan, SpecProjectPlanShape, isObjectLike]
  | num n => simp [isProjectPlan, SpecProjectPlanShape, isObjectLike]
  | str s => simp [isProjectPlan, SpecProjectPlanShape, isObjectLike]
  | arr l => simp [isProjectPlan, SpecProjectPlanShape, isObjectLike, getField]

/-- C6: first-pair-only consumption.  With a second sentinel pair appearing
after a first valid pair, extraction consumes only the first opener and first
closer: `beforeText` is the text before the first pair, the plan is the first
pair's payload, and everything after the first closer — including the second
pair's literal text, which occurs verbatim inside it — becomes `afterText`. -/
theorem C6_firstPairOnly (jsonParse : Str → Option Json) (scp : Option Json)
    (b s1 m s2 a : Str) (v : Json)
    (hopen : strIndexOf b OPEN = none)
    (hclose : strIndexOf (b ++ OPEN ++ s1) CLOSE = none)
    (hdec : jsonParse (trim s1) = some v)
    (hvalid : isProjectPlan v = true) :
    parseProjectPlanMessage jsonParse
        (b ++ OPEN ++ s1 ++ CLOSE ++ (m ++ (OPEN ++ s2 ++ CLOSE) ++ a)) scp
      = ⟨b, m ++ (OPEN ++ s2 ++ CLOSE) ++ a, some v⟩ ∧
    (OPEN ++ s2 ++ CLOSE) <:+: m ++ (OPEN ++ s2 ++ CLOSE) ++ a :=
  ⟨parse_append_block jsonParse scp b s1 (m ++ (OPEN ++ s2 ++ CLOSE) ++ a) v
      hopen hclose hdec hvalid,
   ⟨m, a, rfl⟩⟩

/-- Witness for C6 at a concrete two-pair message. -/
theorem C6_firstPairOnly_witness :
    parseProjectPlanMessage (parseConst demoPlan)
        ("One. ".toList ++ OPEN ++ demoPlanJson ++ CLOSE
          ++ (" Mid ".toList ++ (OPEN ++ emptyPlanJson ++ CLOSE) ++ " End".toList)) none
      = ⟨"One. ".toList,
         " Mid ".toList ++ (OPEN ++ emptyPlanJson ++ CLOSE) ++ " End".toList,
         some demoPlan⟩ ∧
    (OPEN ++ emptyPlanJson ++ CLOSE)
      <:+: " Mid ".toList ++ (OPEN ++ emptyPlanJson ++ CLOSE) ++ " End".toList :=
  C6_firstPairOnly (parseConst demoPlan) none "One. ".toList demoPlanJson
    " Mid ".toList emptyPlanJson " End".toList demoPlan
    (by decide) (by decide) rfl (by decide)

/-- C7: totality.  In this embedding the extractor is a total function by
construction, mirroring the source's try/catch and guard structure (the one
throwing operation, `JSON.parse`, is modelled as the total `Option`-valued
argument): for every content string and side-channel value it returns a
`ParsedProjectPlanMessage`, and every failure path resolves to the plan being
absent — whenever a plan is present, it passed the validator. -/
theorem C7_totality (jsonParse : Str → Option Json) (content : Str) (scp : Option Json) :
    ∃ result : ParsedProjectPlanMessage,
      parseProjectPlanMessage jsonParse content scp = result ∧
      (result.projectPlan = none ∨
        ∃ p, result.projectPlan = some p ∧ isProjectPlan p = true) := by
  refine ⟨parseProjectPlanMessage jsonParse content scp, rfl, ?_⟩
  unfold parseProjectPlanMessage
  cases hsplit : splitByProjectPlanTag content with
  | some triple =>
    obtain ⟨bt, jt, at2⟩ := triple
    dsimp only
    cases hj : jsonParse jt with
    | none => left; rfl
    | some parsed =>
      by_cases hv : isProjectPlan parsed = true
      · right
        exact ⟨parsed, by simp [hv], hv⟩
      · left
        simp [hv]
  | none =>
    cases scp with
    | none => left; rfl
    | some pl =>
      by_cases hv : isProjectPlan pl = true
      · right
        exact ⟨pl, by simp [hv], hv⟩
      · left
        simp [hv]

/-- The unanchored search succeeds exactly when the predicate holds of some
suffix of the input. -/
theorem anySuffix_iff (p : Str → Bool) (s : Str) :
    anySuffix p s = true ↔ ∃ i, p (s.drop i) = true := by
  induction s with
  | nil =>
    constructor
    · intro h
      exact ⟨0, by simpa [anySuffix] using h⟩
    · rintro ⟨i, hi⟩
      rw [List.drop_nil] at hi
      simpa [anySuffix] using hi
  | cons c cs ih =>
    constructor
    · intro h
      rcases (Bool.or_eq_true _ _).mp (by simpa [anySuffix] using h) with h1 | h2
      · exact ⟨0, by simpa using h1⟩
      · obtain ⟨i, hi⟩ := ih.mp h2
        exact ⟨i + 1, by simpa using hi⟩
    · rintro ⟨i, hi⟩
      cases i with
      | zero =>
        rw [List.drop_zero] at hi
        simp [anySuffix, hi]
      | succ i =>
        rw [List.drop_succ_cons] at hi
        simp [anySuffix, ih.mpr ⟨i, hi⟩]

/-- A non-empty pattern cannot match at the start of an empty input. -/
theorem ciPrefixOf_ne_nil (p s : Str) (hp : p ≠ []) (h : ciPrefixOf p s = true) :
    s ≠ [] := by
  intro h0
  subst h0
  cases p with
  | nil => exact hp rfl
  | cons c cs => simp [ciPrefixOf] at h

/-- Every position within the greedy whitespace run is whitespace. -/
theorem all_take_of_le_wsRunLength (s : Str) :
    ∀ m, m ≤ wsRunLength s → (s.take m).all isJsWhitespace = true := by
  induction s with
  | nil =>
    intro m hm
    simp [wsRunLength] at hm
    simp [hm]
  | cons c cs ih =>
    intro m hm
    by_cases hc : isJsWhitespace c = true
    · unfold wsRunLength at hm
      rw [if_pos hc] at hm
      cases m with
      | zero => simp
      | succ m =>
        rw [List.take_succ_cons]
        simp [hc, ih m (by omega)]
    · unfold wsRunLength at hm
      rw [if_neg hc] at hm
      have hm0 : m = 0 := by omega
      subst hm0
      simp

/-- A whitespace-only prefix fits inside the greedy whitespace run. -/
theorem le_wsRunLength_of_all (s : Str) :
    ∀ k, (s.take k).all isJsWhitespace = true → k ≤ s.length → k ≤ wsRunLength s := by
  induction s with
  | nil =>
    intro k _ hk
    simp at hk
    simp [wsRunLength, hk]
  | cons c cs ih =>
    intro k hall hk
    cases k with
    | zero => exact Nat.zero_le _
    | succ k =>
      rw [List.take_succ_cons] at hall
      obtain ⟨hc, hrest⟩ : isJsWhitespace c = true ∧ (cs.take k).all isJsWhitespace = true := by
        simpa using hall
      unfold wsRunLength
      rw [if_pos hc]
      have := ih k hrest (by simpa using hk)
      omega

/-- One anchored regex attempt succeeds exactly when `project`, at least one
whitespace character, and `plan` follow in order from the start. -/
theorem matchProjectPlanAt_iff (s : Str) :
    matchProjectPlanAt s = true ↔
      ∃ k, 1 ≤ k ∧ ciPrefixOf projectChars s = true ∧
        ((s.drop projectChars.length).take k).all isJsWhitespace = true ∧
        ciPrefixOf planChars ((s.drop projectChars.length).drop k) = true := by
  unfold matchProjectPlanAt
  constructor
  · intro h
    obtain ⟨hproj, hrest⟩ := (Bool.and_eq_true _ _).mp h
    obtain ⟨j, hjmem, hplan⟩ := List.any_eq_true.mp hrest
    have hj : j < wsRunLength (s.drop projectChars.length) := List.mem_range.mp hjmem
    refine ⟨j + 1, by omega, hproj, ?_, hplan⟩
    exact all_take_of_le_wsRunLength _ (j + 1) hj
  · rintro ⟨k, hk1, hproj, hall, hplan⟩
    rw [Bool.and_eq_true]
    refine ⟨hproj, ?_⟩
    rw [List.any_eq_true]
    have hne : (s.drop projectChars.length).drop k ≠ [] :=
      ciPrefixOf_ne_nil planChars _ (by decide) hplan
    have hklt : k < (s.drop projectChars.length).length := by
      rcases Nat.lt_or_ge k (s.drop projectChars.length).length with h | h
      · exact h
      · exact absurd (List.drop_eq_nil_iff.mpr h) hne
    have hkws : k ≤ wsRunLength (s.drop projectChars.length) :=
      le_wsRunLength_of_all _ k hall (Nat.le_of_lt hklt)
    refine ⟨k - 1, List.mem_range.mpr (by omega), ?_⟩
    rw [show k - 1 + 1 = k by omega]
    exact hplan

/-- The detector accepts exactly the texts matching its regex, stated
declaratively. -/
theorem isProjectPlanRequest_iff (text : Str) :
    isProjectPlanRequest text = true ↔ SpecProjectSpacePlanMatch text := by
  unfold isProjectPlanRequest SpecProjectSpacePlanMatch
  rw [anySuffix_iff]
  constructor
  · rintro ⟨i, hi⟩
    obtain ⟨k, hk1, hproj, hall, hplan⟩ := (matchProjectPlanAt_iff _).mp hi
    exact ⟨i, k, hk1, hproj, hall, hplan⟩
  · rintro ⟨i, k, hk1, hproj, hall, hplan⟩
    exact ⟨i, (matchProjectPlanAt_iff _).mpr ⟨k, hk1, hproj, hall, hplan⟩⟩

/-- C8 counterexample: the text `Draft a project  plan please` (two spaces
between `project` and `plan`) triggers the detector, so the system prompt is
attached, yet the text does not contain the literal phrase `project plan` as
a case-insensitive substring — refuting the claimed characterization. -/
theorem C8_counterexample :
    isProjectPlanRequest "Draft a project  plan please".toList = true ∧
    containsProjectPlanPhraseCI "Draft a project  plan please".toList = false ∧
    (systemPromptForMessage "Draft a project  plan please".toList).isSome = true :=
  ⟨by decide, by decide, by decide⟩

/-- C8 (amended): the project-plan system prompt is attached to the outgoing
call exactly when the user text matches, case-insensitively, `project`
followed by one or more whitespace characters followed by `plan` (the regex
of the source); otherwise no system prompt is attached. -/
theorem C8_detectorRegexCharacterization (text : Str) :
    (systemPromptForMessage text = some buildProjectPlanSystemPrompt
      ↔ SpecProjectSpacePlanMatch text) ∧
    (systemPromptForMessage text = none ↔ ¬ SpecProjectSpacePlanMatch text) := by
  by_cases h : isProjectPlanRequest text = true
  · simp [systemPromptForMessage, h, (isProjectPlanRequest_iff text).mp h]
  · have hn : ¬ SpecProjectSpacePlanMatch text := fun hs =>
      h ((isProjectPlanRequest_iff text).mpr hs)
    simp [systemPromptForMessage, h, hn]

/-- C9: region emission order and suppression.  The rendered regions are
exactly: a text region for the trimmed `beforeText` only if non-empty, then a
plan region only if a plan is present, then a text region for the trimmed
`afterText` only if non-empty; in particular a message that is only a plan
block renders exactly one region. -/
theorem C9_regionOrderAndSuppression (jsonParse : Str → Option Json) (content : Str)
    (scp : Option Json) :
    (messageBodyRegions jsonParse content scp =
      (if trim (parseProjectPlanMessage jsonParse content scp).beforeText = [] then []
       else [Region.text (trim (parseProjectPlanMessage jsonParse content scp).beforeText)])
      ++ (match (parseProjectPlanMessage jsonParse content scp).projectPlan with
          | some p => [Region.plan p]
          | none => [])
      ++ (if trim (parseProjectPlanMessage jsonParse content scp).afterText = [] then []
          else [Region.text (trim (parseProjectPlanMessage jsonParse content scp).afterText)])) ∧
    (∀ p, trim (parseProjectPlanMessage jsonParse content scp).beforeText = [] →
      trim (parseProjectPlanMessage jsonParse content scp).afterText = [] →
      (parseProjectPlanMessage jsonParse content scp).projectPlan = some p →
      messageBodyRegions jsonParse content scp = [Region.plan p]) := by
  constructor
  · unfold messageBodyRegions
    by_cases hb : trim (parseProjectPlanMessage jsonParse content scp).beforeText = [] <;>
      by_cases ha : trim (parseProjectPlanMessage jsonParse content scp).afterText = [] <;>
        simp [hb, ha, List.length_pos]
  · intro p hb ha hp
    unfold messageBodyRegions
    simp [hb, ha, hp]

/-- Witness for C9: a message that is only a plan block renders exactly the
plan region. -/
theorem C9_regionOrderAndSuppression_witness :
    messageBodyRegions (parseConst emptyPlan) "<project_plan>X</project_plan>".toList none
      = [Region.plan emptyPlan] :=
  (C9_regionOrderAndSuppression (parseConst emptyPlan)
      "<project_plan>X</project_plan>".toList none).2
    emptyPlan (by decide) (by decide) rfl

/-- Appending members to an object does not disturb an existing first-match
lookup. -/
theorem lookupField_append (ms extra : List (Str × Json)) (key : Str) (v : Json)
    (h : lookupField ms key = some v) :
    lookupField (ms ++ extra) key = some v := by
  induction ms with
  | nil => exact absurd h (by simp [lookupField])
  | cons kv rest ih =>
    obtain ⟨k, w⟩ := kv
    rw [List.cons_append]
    simp only [lookupField] at h ⊢
    by_cases hk : k = key
    · rwa [if_pos hk] at h ⊢
    · rw [if_neg hk] at h ⊢
      exact ih h

/-- Appending extra members preserves a passing non-empty-string field. -/
theorem isNonEmptyString_append (ms extra : List (Str × Json)) (key : Str)
    (h : isNonEmptyString (getField (Json.obj ms) key) = true) :
    isNonEmptyString (getField (Json.obj (ms ++ extra)) key) = true := by
  obtain ⟨s, hs, hne⟩ := (isNonEmptyString_iff _).mp h
  simp only [getField] at hs
  exact (isNonEmptyString_iff _).mpr
    ⟨s, by simp [getField, lookupField_append ms extra key _ hs], hne⟩

/-- Appending extra members preserves a passing deliverable check. -/
theorem isDeliverable_append (ms extra : List (Str × Json))
    (h : isDeliverable (Json.obj ms) = true) :
    isDeliverable (Json.obj (ms ++ extra)) = true := by
  simp only [isDeliverable, Bool.and_eq_true] at h ⊢
  obtain ⟨⟨hobj, ht⟩, hd⟩ := h
  exact ⟨⟨by simp [isObjectLike], isNonEmptyString_append ms extra titleKey ht⟩,
    isNonEmptyString_append ms extra descriptionKey hd⟩

/-- Appending extra members preserves a passing workstream check. -/
theorem isWorkstream_append (ms extra : List (Str × Json))
    (h : isWorkstream (Json.obj ms) = true) :
    isWorkstream (Json.obj (ms ++ extra)) = true := by
  simp only [isWorkstream, Bool.and_eq_true] at h ⊢
  obtain ⟨⟨⟨hobj, ht⟩, hd⟩, hm⟩ := h
  refine ⟨⟨⟨by simp [isObjectLike], isNonEmptyString_append ms extra titleKey ht⟩,
    isNonEmptyString_append ms extra descriptionKey hd⟩, ?_⟩
  cases hdel : lookupField ms deliverablesKey with
  | none => simp [getField, hdel] at hm
  | some dv =>
    cases dv with
    | arr ds =>
      simp only [getField, hdel] at hm
      simp [getField, lookupField_append ms extra deliverablesKey (Json.arr ds) hdel, hm]
    | null => simp [getField, hdel] at hm
    | bool b => simp [getField, hdel] at hm
    | num n => simp [getField, hdel] at hm
    | str s => simp [getField, hdel] at hm
    | obj o => simp [getField, hdel] at hm

/-- Appending extra members preserves a passing plan check. -/
theorem isProjectPlan_append (ms extra : List (Str × Json))
    (h : isProjectPlan (Json.obj ms) = true) :
    isProjectPlan (Json.obj (ms ++ extra)) = true := by
  simp only [isProjectPlan, Bool.and_eq_true] at h ⊢
  obtain ⟨hobj, hm⟩ := h
  refine ⟨by simp [isObjectLike], ?_⟩
  cases hws : lookupField ms workstreamsKey with
  | none => simp [getField, hws] at hm
  | some wv =>
    cases wv with
    | arr ws =>
      simp only [getField, hws] at hm
      simp [getField, lookupField_append ms extra workstreamsKey (Json.arr ws) hws, hm]
    | null => simp [getField, hws] at hm
    | bool b => simp [getField, hws] at hm
    | num n => simp [getField, hws] at hm
    | str s => simp [getField, hws] at hm
    | obj o => simp [getField, hws] at hm

/-- When a tag split succeeds and the payload decodes to a validator-passing
value, the extractor returns that decoded value itself. -/
theorem projectPlan_of_split (jsonParse : Str → Option Json) (content : Str)
    (scp : Option Json) (b j a : Str) (v : Json)
    (hsplit : splitByProjectPlanTag content = some (b, j, a))
    (hdec : jsonParse j = some v) (hvalid : isProjectPlan v = true) :
    (parseProjectPlanMessage jsonParse content scp).projectPlan = some v := by
  unfold parseProjectPlanMessage
  rw [hsplit]
  dsimp only
  rw [hdec]
  simp [hvalid]

/-- C10: unknown fields pass validation.  The validator reads only the
`workstreams`, `title`, `description`, and `deliverables` fields, so extra
members anywhere — on the plan, a workstream, or a deliverable — do not
affect acceptance; and the extractor returns the decoded value itself, extra
fields included. -/
theorem C10_unknownFieldsAccepted :
    (∀ ms extra, isDeliverable (Json.obj ms) = true →
      isDeliverable (Json.obj (ms ++ extra)) = true) ∧
    (∀ ms extra, isWorkstream (Json.obj ms) = true →
      isWorkstream (Json.obj (ms ++ extra)) = true) ∧
    (∀ ms extra, isProjectPlan (Json.obj ms) = true →
      isProjectPlan (Json.obj (ms ++ extra)) = true) ∧
    (∀ (jsonParse : Str → Option Json) (content : Str) (scp : Option Json)
        (b j a : Str) (v : Json),
      splitByProjectPlanTag content = some (b, j, a) →
      jsonParse j = some v → isProjectPlan v = true →
      (parseProjectPlanMessage jsonParse content scp).projectPlan = some v) :=
  ⟨isDeliverable_append, isWorkstream_append, isProjectPlan_append, projectPlan_of_split⟩

/-- Witness for C10: a plan carrying extra fields at the top level and inside
its workstream is accepted, and the extractor returns it verbatim. -/
theorem C10_unknownFieldsAccepted_witness :
    isProjectPlan (Json.obj (planMembers ++ extraMembers)) = true ∧
    (parseProjectPlanMessage (parseConst extrasPlan)
        (OPEN ++ "X".toList ++ CLOSE) none).projectPlan = some extrasPlan :=
  ⟨C10_unknownFieldsAccepted.2.2.1 planMembers extraMembers (by decide),
   C10_unknownFieldsAccepted.2.2.2 (parseConst extrasPlan) (OPEN ++ "X".toList ++ CLOSE)
     none [] "X".toList [] extrasPlan (by decide) rfl (by decide)⟩

end Tekkr
